import Mathlib

/-!
Verification of the wordpath program (src/wordpath/wordpaths.py).

The program computes word ladders: it builds an undirected graph over the
dictionary words that share the origin's length, with an edge between two
words exactly when their Hamming distance is 1, runs a breadth-first search
from the origin's vertex, and reconstructs the path to the destination's
vertex from the recorded parent links.

The embedding below mirrors the Python source:
  - machine-level Python exceptions (ValueError, KeyError, TypeError) are
    modelled as values of PyError carried in Except;
  - the Graph class stores, as in the source, a list of adjacency sets
    indexed by vertex, here a List of Finset Nat;
  - the BFS while-loop is modelled with explicit fuel; the fuel 2 * V + 1
    is proved sufficient below (the loop always drains its queue), so the
    fuel-exhaustion branch never fires for runs of the program;
  - the path_to while-loop is likewise fuelled; its loop follows parent
    links, and the source raises a TypeError when the destination was never
    visited (it reverses the value None), which the embedding returns as
    an explicit error value.
Python set iteration order is unspecified; the embedding enumerates each
adjacency set in ascending vertex order.  Every property proved below is
independent of the enumeration order.
-/

/-- Python exception values raised by the program: ValueError carries the
message built by hamming_distance, KeyError the missing dictionary key,
TypeError the message raised when None is sliced. -/
inductive PyError where
  | valueError (msg : String)
  | keyError (key : String)
  | typeError (msg : String)
deriving DecidableEq

deriving instance DecidableEq for Except

namespace Wordpath

/-- Embedding of Wordpath._hamming_distance (wordpaths.py lines 224-242):
raises ValueError on unequal lengths, otherwise counts differing
positions of the two character sequences. -/
def hamming_distance (first second : String) : Except PyError Nat :=
  if first.length ≠ second.length then
    .error (.valueError
      ("Undefined for sequences of unequal length (" ++ first ++ " - " ++ second ++ ")"))
  else
    .ok ((first.toList.zip second.toList).countP (fun p => p.1 != p.2))

/-- Embedding of Wordpath._those_at_distance (wordpaths.py lines 244-258):
the list comprehension filters wordlist with the short-circuit predicate
word != w and len(word) == len(w) and _hamming_distance(word, w) == distance,
evaluated left to right; a ValueError raised by _hamming_distance would
propagate, which the Except threading models. -/
def those_at_distance (word : String) (wordlist : List String) (distance : Nat) :
    Except PyError (List String) :=
  match wordlist with
  | [] => .ok []
  | w :: rest => do
    let keep ←
      if word = w then pure false
      else if word.length ≠ w.length then pure false
      else do
        let d ← hamming_distance word w
        pure (d == distance)
    let tail ← those_at_distance word rest distance
    if keep then pure (w :: tail) else pure tail

/-- The total behaviour of the comprehension in _those_at_distance: because
the length guard short-circuits before _hamming_distance is called, the
comprehension never raises and equals this plain filter (proved below). -/
def those_at_distance_total (word : String) (wordlist : List String) (distance : Nat) :
    List String :=
  wordlist.filter (fun w =>
    decide (word ≠ w) && decide (word.length = w.length) &&
      ((word.toList.zip w.toList).countP (fun p => p.1 != p.2) == distance))

end Wordpath

/-- Embedding of the Graph class (wordpaths.py lines 5-108): V vertices,
a list of adjacency sets indexed by vertex, and an edge counter. -/
structure Graph where
  V : Nat
  Adj : List (Finset Nat)
  E : Nat

/-- Graph.__init__ (lines 73-81): V vertices, each with an empty adjacency
set, zero edges. -/
def Graph.init (v : Nat) : Graph :=
  { V := v, Adj := List.replicate v ∅, E := 0 }

/-- Graph.adj (lines 104-108): the adjacency set of a vertex.  The source
indexes the list directly (raising IndexError out of range); the program
only ever queries vertices below V, where getD agrees with it. -/
def Graph.adj (g : Graph) (v : Nat) : Finset Nat :=
  g.Adj.getD v ∅

/-- Graph.add_edge (lines 95-102): inserts w into the adjacency set of v,
then v into the adjacency set of w, and counts the edge.  As in the
source the two set-insertions happen in sequence on the same array. -/
def Graph.add_edge (g : Graph) (v w : Nat) : Graph :=
  let adj1 := g.Adj.set v (insert w (g.Adj.getD v ∅))
  let adj2 := adj1.set w (insert v (adj1.getD w ∅))
  { g with Adj := adj2, E := g.E + 1 }

/-- A sequence of add_edge calls starting from a given graph, used to state
properties of every graph the program can build. -/
def foldAddEdges (g : Graph) (ps : List (Nat × Nat)) : Graph :=
  ps.foldl (fun g p => g.add_edge p.1 p.2) g

/-- Enumeration of an adjacency set, modelling the iteration
for w in g.adj(v) of the source.  Python set iteration order is
unspecified; the embedding enumerates in ascending vertex order. -/
def Graph.adjEnum (g : Graph) (v : Nat) : List Nat :=
  (List.range g.V).filter (fun w => decide (w ∈ g.adj v))

/-- The mutable state of BreadthFirstPaths.__bfs (lines 127-144): the
Marked array, the EdgeTo parent array (initialised to -1), and the FIFO
queue. -/
structure BfsState where
  Marked : List Bool
  EdgeTo : List Int
  queue : List Nat

/-- The inner loop of __bfs (lines 140-144): for each w in the adjacency
enumeration of the dequeued vertex v, if w is unmarked, record v as its
parent, mark it and enqueue it.  The source indexes Marked[w] directly;
for w out of range it would raise IndexError, which never happens because
add_edge is only called with vertex indices below V; the embedding skips
such w. -/
def bfsVisit (v : Nat) (ws : List Nat) (st : BfsState) : BfsState :=
  match ws with
  | [] => st
  | w :: rest =>
    if st.Marked.getD w false then bfsVisit v rest st
    else if w < st.Marked.length then
      bfsVisit v rest ⟨st.Marked.set w true, st.EdgeTo.set w (v : Int), st.queue ++ [w]⟩
    else bfsVisit v rest st

/-- The while-loop of __bfs (lines 138-144), with explicit fuel standing
for the unbounded while; bfsLoop_drains below shows the queue is always
empty when the program's fuel 2 * V + 1 runs out, so the fuel-exhaustion
branch is unreachable on runs of the program. -/
def bfsLoop (adjf : Nat → List Nat) : Nat → BfsState → BfsState
  | 0, st => st
  | fuel + 1, st =>
    match st.queue with
    | [] => st
    | v :: rest => bfsLoop adjf fuel (bfsVisit v (adjf v) ⟨st.Marked, st.EdgeTo, rest⟩)

/-- The fields of a constructed BreadthFirstPaths object (lines 118-125):
Marked, EdgeTo and the source vertex S. -/
structure BreadthFirstPaths where
  Marked : List Bool
  EdgeTo : List Int
  S : Nat

/-- BreadthFirstPaths.__init__ (lines 118-125): Marked all False except the
source, EdgeTo all -1, then the BFS main loop from the queue [s]. -/
def BreadthFirstPaths.run (g : Graph) (s : Nat) : BreadthFirstPaths :=
  let st0 : BfsState :=
    { Marked := (List.replicate g.V false).set s true
      EdgeTo := List.replicate g.V (-1)
      queue := [s] }
  let st := bfsLoop g.adjEnum (2 * g.V + 1) st0
  { Marked := st.Marked, EdgeTo := st.EdgeTo, S := s }

/-- BreadthFirstPaths.has_path_to (lines 146-151). -/
def BreadthFirstPaths.has_path_to (bp : BreadthFirstPaths) (v : Nat) : Bool :=
  bp.Marked.getD v false

/-- The while-loop of path_to (lines 167-171): starting at the destination,
follow EdgeTo parents until the source, collecting [v, parent v, ..., s].
The fuel stands for the unbounded while; a -1 (or any negative) parent
entry would send the source into negative indexing and a nonsensical loop,
modelled as none, and none also models fuel exhaustion; both are proved
unreachable for BFS results below. -/
def pathToChain (edgeTo : List Int) (s : Nat) : Nat → Nat → Option (List Nat)
  | 0, _ => none
  | fuel + 1, x =>
    if x = s then some [s]
    else
      match (edgeTo.getD x (-1)).toNat' with
      | some y => (pathToChain edgeTo s fuel y).map (fun t => x :: t)
      | none => none

/-- BreadthFirstPaths.path_to (lines 153-172).  When the destination was
visited, the collected parent chain is reversed and returned.  When it was
not visited, result is still None and the source executes None[::-1],
raising a TypeError: the embedding returns that error as a value. -/
def BreadthFirstPaths.path_to (bp : BreadthFirstPaths) (v : Nat) : Except PyError (List Nat) :=
  if bp.has_path_to v then
    match pathToChain bp.EdgeTo bp.S (bp.Marked.length + 1) v with
    | some chain => .ok chain.reverse
    | none => .error (.valueError "path_to loop diverged")
  else
    .error (.typeError "NoneType object is not subscriptable")

namespace Wordpath

/-- A Python dict lookup d[k]: raises KeyError when the key is absent.
The dict of find_word_path is modelled as an association list in which
later insertions shadow earlier ones. -/
def dictGet (indexes : List (String × Nat)) (key : String) : Except PyError Nat :=
  match List.lookup key indexes with
  | some i => .ok i
  | none => .error (.keyError key)

/-- The index-building loop of find_word_path (lines 303-306): the dict
maps each subset word to its position, later duplicates overwriting
earlier entries.  Entries produced by later iterations are placed in
front, so that lookup (which scans left to right) sees the last write,
exactly as a Python dict does. -/
def buildIndexesAux : List String → Nat → List (String × Nat)
  | [], _ => []
  | w :: ws, i => (w, i) :: buildIndexesAux ws (i + 1)

/-- The word-to-index dict of find_word_path.  Note buildIndexesAux puts
earlier positions first; lookup must therefore see the LAST binding for a
duplicated word, which buildIndexes achieves by reversing. -/
def buildIndexes (subset : List String) : List (String × Nat) :=
  (buildIndexesAux subset 0).reverse

/-- The graph-building loop of find_word_path (lines 302-313): a graph on
subset.length vertices, with an edge added for every w in the subset and
every close_match at Hamming distance 1 from it, joining their dict
indexes.  Dict lookups and those_at_distance run in the Except monad as
in the source (both are in fact total here, proved below). -/
def build_graph (subset : List String) : Except PyError Graph :=
  let indexes := buildIndexes subset
  subset.foldlM
    (fun g w => do
      let iw ← dictGet indexes w
      let cms ← those_at_distance w subset 1
      cms.foldlM
        (fun g cm => do
          let icm ← dictGet indexes cm
          pure (g.add_edge iw icm))
        g)
    (Graph.init subset.length)

/-- A total lookup into the index dict, defined for words that are in the
subset (the only way build_graph_pairs uses it). -/
def lookupD (indexes : List (String × Nat)) (key : String) : Nat :=
  (List.lookup key indexes).getD 0

/-- The edge pairs added by the graph-building loop, flattened: for each w
of the subset in order, for each close_match of w in order, the pair of
their dict indexes. -/
def edge_pairs (subset : List String) : List (Nat × Nat) :=
  subset.flatMap (fun w =>
    (those_at_distance_total w subset 1).map
      (fun cm => (lookupD (buildIndexes subset) w, lookupD (buildIndexes subset) cm)))

/-- The graph value built by find_word_path, as a total function: proved
below to be exactly what build_graph returns. -/
def build_graph_total (subset : List String) : Graph :=
  foldAddEdges (Graph.init subset.length) (edge_pairs subset)

/-- The candidate subset of find_word_path (line 300): the dictionary
words whose length equals the origin's. -/
def candidate_subset (words : List String) (origin : String) : List String :=
  words.filter (fun word => word.length == origin.length)

/-- Embedding of Wordpath.find_word_path (lines 260-327), with the loaded
dictionary passed as an explicit argument.  Order of effects follows the
source: the candidate subset and the index dict are built, the graph is
built (line 302-313), indexes[origin] is read while constructing the
search object (line 317), indexes[destination] is read (line 320), and
path_to runs (line 320).  The source's check path == None on line 321 is
dead code, because path_to raises instead of returning None; the embedding
therefore never takes that branch either.  Finally the index path is
translated back into words (line 325). -/
def find_word_path (words : List String) (origin destination : String) :
    Except PyError (List String) := do
  let subset := candidate_subset words origin
  let lst := subset
  let indexes := buildIndexes subset
  let graph ← build_graph subset
  let so ← dictGet indexes origin
  let searchAlgorithm := BreadthFirstPaths.run graph so
  let dv ← dictGet indexes destination
  let path ← searchAlgorithm.path_to dv
  pure (path.map (fun i => lst.getD i ""))

end Wordpath

/-- Vertex v is marked in the Boolean array. -/
def MarkedP (marked : List Bool) (v : Nat) : Prop :=
  marked.getD v false = true

/-- The parent recorded for v by the BFS, when it is a valid vertex. -/
def parentOf (edgeTo : List Int) (v : Nat) : Option Nat :=
  (edgeTo.getD v (-1)).toNat'

/-- The termination measure of the BFS main loop: every iteration strictly
decreases twice-the-unmarked-count plus the queue length. -/
def bfsMeasure (st : BfsState) : Nat :=
  2 * st.Marked.count false + st.queue.length

/-- Invariant of the BFS main loop over state st, for a graph on n vertices
enumerated by adjf, source s, where dd assigns each marked vertex its
discovery depth: parents are marked neighbours one level shallower, the
queue holds marked vertices in nondecreasing depth spanning at most two
levels, and dequeued vertices have all neighbours marked at most one
level deeper. -/
structure BfsInv (n : Nat) (adjf : Nat → List Nat) (s : Nat) (st : BfsState)
    (dd : Nat → Nat) : Prop where
  mlen : st.Marked.length = n
  elen : st.EdgeTo.length = n
  smark : MarkedP st.Marked s
  sdd : dd s = 0
  qmark : ∀ v ∈ st.queue, MarkedP st.Marked v
  qnodup : st.queue.Nodup
  qpair : st.queue.Pairwise (fun a b => dd a ≤ dd b)
  qbound : ∀ w v, MarkedP st.Marked w → v ∈ st.queue → dd w ≤ dd v + 1
  mlt : ∀ v, MarkedP st.Marked v → v < n
  parent : ∀ v, MarkedP st.Marked v → v ≠ s →
    ∃ u, parentOf st.EdgeTo v = some u ∧ MarkedP st.Marked u ∧ v ∈ adjf u ∧ dd v = dd u + 1
  ddzero : ∀ v, MarkedP st.Marked v → dd v = 0 → v = s
  processed : ∀ v, MarkedP st.Marked v → v ∉ st.queue →
    ∀ w ∈ adjf v, MarkedP st.Marked w ∧ dd w ≤ dd v + 1

/-- Invariant holding while the inner loop of __bfs processes the
adjacency enumeration of the dequeued vertex v, with ws the neighbours
not yet handled. -/
structure BfsMidInv (n : Nat) (adjf : Nat → List Nat) (s : Nat) (v : Nat) (ws : List Nat)
    (st : BfsState) (dd : Nat → Nat) : Prop where
  mlen : st.Marked.length = n
  elen : st.EdgeTo.length = n
  smark : MarkedP st.Marked s
  sdd : dd s = 0
  qmark : ∀ u ∈ st.queue, MarkedP st.Marked u
  qnodup : st.queue.Nodup
  qpair : st.queue.Pairwise (fun a b => dd a ≤ dd b)
  qbound : ∀ w u, MarkedP st.Marked w → u ∈ st.queue → dd w ≤ dd u + 1
  mlt : ∀ u, MarkedP st.Marked u → u < n
  parent : ∀ u, MarkedP st.Marked u → u ≠ s →
    ∃ p, parentOf st.EdgeTo u = some p ∧ MarkedP st.Marked p ∧ u ∈ adjf p ∧ dd u = dd p + 1
  ddzero : ∀ u, MarkedP st.Marked u → dd u = 0 → u = s
  vmark : MarkedP st.Marked v
  vlt : v < n
  vnotq : v ∉ st.queue
  vbound : ∀ w, MarkedP st.Marked w → dd w ≤ dd v + 1
  qlow : ∀ u ∈ st.queue, dd v ≤ dd u
  procOther : ∀ u, MarkedP st.Marked u → u ∉ st.queue → u ≠ v →
    ∀ w ∈ adjf u, MarkedP st.Marked w ∧ dd w ≤ dd u + 1
  procV : ∀ w ∈ adjf v, w ∉ ws → MarkedP st.Marked w ∧ dd w ≤ dd v + 1


/-! ## Generic list helper lemmas -/

theorem getD_set {α : Type} (l : List α) (i j : Nat) (a d : α) :
    (l.set i a).getD j d = if i = j ∧ i < l.length then a else l.getD j d := by
  induction l generalizing i j with
  | nil => simp
  | cons x t ih =>
    cases i with
    | zero =>
      cases j with
      | zero => simp
      | succ j => simp
    | succ i =>
      cases j with
      | zero => simp
      | succ j =>
        have hs : (x :: t).set (i + 1) a = x :: t.set i a := rfl
        rw [hs, List.getD_cons_succ, List.getD_cons_succ, ih]
        have hiff : (i = j ∧ i < t.length) ↔ (i + 1 = j + 1 ∧ i + 1 < (x :: t).length) := by
          simp only [List.length_cons]
          omega
        by_cases h : i = j ∧ i < t.length
        · rw [if_pos h, if_pos (hiff.mp h)]
        · rw [if_neg h, if_neg (fun hh => h (hiff.mpr hh))]

theorem getD_replicate {α : Type} (n i : Nat) (a d : α) :
    (List.replicate n a).getD i d = if i < n then a else d := by
  induction n generalizing i with
  | zero => simp
  | succ n ih =>
    cases i with
    | zero => simp [List.replicate_succ]
    | succ i =>
      rw [List.replicate_succ, List.getD_cons_succ, ih]
      simp [Nat.succ_lt_succ_iff]

theorem count_false_set (l : List Bool) (w : Nat) (h1 : l.getD w false = false)
    (h2 : w < l.length) : (l.set w true).count false + 1 = l.count false := by
  induction l generalizing w with
  | nil => simp at h2
  | cons x t ih =>
    cases w with
    | zero =>
      simp only [List.getD_cons_zero] at h1
      subst h1
      simp [List.count_cons]
    | succ w =>
      simp only [List.getD_cons_succ] at h1
      simp only [List.length_cons, Nat.succ_lt_succ_iff] at h2
      simp [List.count_cons, ← ih w h1 h2]
      omega

theorem foldlM_ok {α β : Type} (f : β → α → Except PyError β) (g : β → α → β)
    (l : List α) (b : β) (hf : ∀ b, ∀ a ∈ l, f b a = .ok (g b a)) :
    l.foldlM f b = .ok (l.foldl g b) := by
  induction l generalizing b with
  | nil => rfl
  | cons a t ih =>
    have ha : f b a = .ok (g b a) := hf b a (by simp)
    simp only [List.foldlM, List.foldl, ha]
    exact ih (g b a) (fun b' a' ha' => hf b' a' (by simp [ha']))

theorem foldl_nested_flatMap {α β γ δ : Type} (outer : List α) (inner : α → List β)
    (h : α → β → γ) (step : δ → γ → δ) (d : δ) :
    outer.foldl (fun acc w => (inner w).foldl (fun acc cm => step acc (h w cm)) acc) d
      = (outer.flatMap (fun w => (inner w).map (h w))).foldl step d := by
  induction outer generalizing d with
  | nil => rfl
  | cons w t ih =>
    simp only [List.foldl, List.flatMap_cons, List.foldl_append, List.foldl_map]
    exact ih _

/-! ## Hamming distance and neighbour filter: claims C5, C7, C10 -/

theorem hamming_distance_ok_iff (first second : String) (d : Nat) :
    Wordpath.hamming_distance first second = .ok d ↔
      first.length = second.length ∧
        (first.toList.zip second.toList).countP (fun p => p.1 != p.2) = d := by
  unfold Wordpath.hamming_distance
  by_cases h : first.length = second.length <;> simp [h]

theorem countP_zip_self (l : List Char) :
    (l.zip l).countP (fun p => p.1 != p.2) = 0 := by
  induction l with
  | nil => rfl
  | cons c t ih => simp [List.zip_cons_cons, List.countP_cons, ih]

theorem countP_zip_comm (l1 l2 : List Char) :
    (l1.zip l2).countP (fun p => p.1 != p.2) = (l2.zip l1).countP (fun p => p.1 != p.2) := by
  induction l1 generalizing l2 with
  | nil => cases l2 <;> rfl
  | cons a t1 ih =>
    cases l2 with
    | nil => rfl
    | cons b t2 =>
      have hbne : (a != b) = (b != a) := by
        by_cases h : a = b
        · subst h
          rfl
        · rw [bne_iff_ne.mpr h, bne_iff_ne.mpr (Ne.symm h)]
      simp [List.zip_cons_cons, List.countP_cons, ih, hbne]

theorem hamming_distance_ne (a b : String) (h : Wordpath.hamming_distance a b = .ok 1) :
    a ≠ b := by
  intro hab
  subst hab
  rw [hamming_distance_ok_iff] at h
  rw [countP_zip_self] at h
  exact absurd h.2 (by omega)

theorem hamming_distance_ok_comm (a b : String) (d : Nat)
    (h : Wordpath.hamming_distance a b = .ok d) : Wordpath.hamming_distance b a = .ok d := by
  rw [hamming_distance_ok_iff] at h ⊢
  exact ⟨h.1.symm, by rw [countP_zip_comm]; exact h.2⟩

theorem those_at_distance_eq (word : String) (l : List String) (d : Nat) :
    Wordpath.those_at_distance word l d = .ok (Wordpath.those_at_distance_total word l d) := by
  induction l with
  | nil => rfl
  | cons w rest ih =>
    by_cases h1 : word = w
    · subst h1
      simp [Wordpath.those_at_distance, Wordpath.those_at_distance_total, ih, List.filter_cons,
        Bind.bind, Except.bind, Pure.pure, Except.pure]
    · by_cases h2 : word.length = w.length
      · by_cases h3 : (word.data.zip w.data).countP (fun p => p.1 != p.2) = d
        · simp [Wordpath.those_at_distance, Wordpath.those_at_distance_total, ih,
            List.filter_cons, Bind.bind, Except.bind, Pure.pure, Except.pure, h1, h2, h3,
            Wordpath.hamming_distance]
        · simp [Wordpath.those_at_distance, Wordpath.those_at_distance_total, ih,
            List.filter_cons, Bind.bind, Except.bind, Pure.pure, Except.pure, h1, h2, h3,
            Wordpath.hamming_distance]
      · simp [Wordpath.those_at_distance, Wordpath.those_at_distance_total, ih,
          List.filter_cons, Bind.bind, Except.bind, Pure.pure, Except.pure, h1, h2,
          Wordpath.hamming_distance]

theorem mem_those_at_distance_total (word : String) (l : List String) (d : Nat) (x : String) :
    x ∈ Wordpath.those_at_distance_total word l d ↔
      x ∈ l ∧ x ≠ word ∧ Wordpath.hamming_distance word x = .ok d := by
  simp only [Wordpath.those_at_distance_total, List.mem_filter, Bool.and_eq_true,
    decide_eq_true_eq, beq_iff_eq, hamming_distance_ok_iff]
  constructor
  · rintro ⟨hx, ⟨hne, hlen⟩, hcount⟩
    exact ⟨hx, fun hh => hne hh.symm, hlen, hcount⟩
  · rintro ⟨hx, hne, hlen, hcount⟩
    exact ⟨hx, ⟨fun hh => hne hh.symm, hlen⟩, hcount⟩

/-- C5: for every pair of words of unequal length, _hamming_distance fails
with the ValueError naming both words, and never returns a number. -/
theorem c5_hamming_unequal_raises (first second : String)
    (h : first.length ≠ second.length) :
    Wordpath.hamming_distance first second =
      .error (.valueError
        ("Undefined for sequences of unequal length (" ++ first ++ " - " ++ second ++ ")")) := by
  simp [Wordpath.hamming_distance, h]

theorem c5_witness :
    "abc".length ≠ "aabbcc".length ∧
      Wordpath.hamming_distance "abc" "aabbcc" =
        .error (.valueError "Undefined for sequences of unequal length (abc - aabbcc)") :=
  ⟨by decide, c5_hamming_unequal_raises "abc" "aabbcc" (by decide)⟩

/-- C7: _those_at_distance returns exactly the sub-sequence of the word
list whose Hamming distance to the word equals the target: it is the
order-preserving filter of the list (hence a sublist), it never contains
the word itself for any target distance, and membership is equivalent to
being a list element distinct from the word at Hamming distance exactly
the target. -/
theorem c7_those_at_distance_exact (word : String) (l : List String) (d : Nat) :
    Wordpath.those_at_distance word l d = .ok (Wordpath.those_at_distance_total word l d) ∧
    (Wordpath.those_at_distance_total word l d).Sublist l ∧
    word ∉ Wordpath.those_at_distance_total word l d ∧
    (∀ x, x ∈ Wordpath.those_at_distance_total word l d ↔
      x ∈ l ∧ x ≠ word ∧ Wordpath.hamming_distance word x = .ok d) := by
  refine ⟨those_at_distance_eq word l d, List.filter_sublist l, ?_,
    fun x => mem_those_at_distance_total word l d x⟩
  intro hmem
  exact ((mem_those_at_distance_total word l d word).mp hmem).2.1 rfl

/-- C10: _those_at_distance is total for every input, including word lists
whose members differ in length from the word: the length guard
short-circuits before _hamming_distance can raise, and words of a
different length are silently omitted from the result. -/
theorem c10_those_at_distance_never_raises (word : String) (l : List String) (d : Nat) :
    ∃ r, Wordpath.those_at_distance word l d = .ok r ∧
      ∀ x ∈ r, x.length = word.length := by
  refine ⟨Wordpath.those_at_distance_total word l d, those_at_distance_eq word l d, ?_⟩
  intro x hx
  simp only [Wordpath.those_at_distance_total, List.mem_filter, Bool.and_eq_true,
    decide_eq_true_eq] at hx
  exact hx.2.1.2.symm

/-! ## Association list (Python dict) lemmas -/

theorem lookup_eq_some_mem {α β : Type} [BEq α] [LawfulBEq α] (l : List (α × β)) (a : α) (b : β)
    (h : List.lookup a l = some b) : (a, b) ∈ l := by
  induction l with
  | nil => simp [List.lookup] at h
  | cons x t ih =>
    obtain ⟨xa, xb⟩ := x
    rw [List.lookup] at h
    cases hax : a == xa with
    | true =>
      rw [hax] at h
      have hb : some xb = some b := h
      have ha : a = xa := eq_of_beq hax
      cases hb
      exact List.mem_cons.mpr (Or.inl (by rw [ha]))
    | false =>
      rw [hax] at h
      exact List.mem_cons_of_mem _ (ih h)

theorem lookup_exists_of_mem_fst {α β : Type} [BEq α] [LawfulBEq α] (l : List (α × β)) (a : α)
    (h : a ∈ l.map Prod.fst) : ∃ b, List.lookup a l = some b := by
  induction l with
  | nil => simp at h
  | cons x t ih =>
    obtain ⟨xa, xb⟩ := x
    rw [List.lookup]
    cases hax : a == xa with
    | true => exact ⟨xb, rfl⟩
    | false =>
      show ∃ b, List.lookup a t = some b
      apply ih
      simp only [List.map_cons, List.mem_cons] at h
      rcases h with h1 | h2
      · exact absurd (beq_iff_eq.mpr h1) (by simp [hax])
      · exact h2

theorem buildIndexesAux_map_fst (s : List String) (k : Nat) :
    (Wordpath.buildIndexesAux s k).map Prod.fst = s := by
  induction s generalizing k with
  | nil => rfl
  | cons w t ih => simp [Wordpath.buildIndexesAux, ih]

theorem mem_buildIndexesAux (s : List String) (k : Nat) (w : String) (j : Nat) :
    (w, j) ∈ Wordpath.buildIndexesAux s k ↔
      ∃ m, m < s.length ∧ s.getD m "" = w ∧ j = k + m := by
  induction s generalizing k with
  | nil => simp [Wordpath.buildIndexesAux]
  | cons x t ih =>
    simp only [Wordpath.buildIndexesAux, List.mem_cons, ih, Prod.mk.injEq]
    constructor
    · rintro (⟨hw, hj⟩ | ⟨m, hm, hw, hj⟩)
      · exact ⟨0, by simp, by simp [hw], by omega⟩
      · exact ⟨m + 1, by simp; omega, by simpa using hw, by omega⟩
    · rintro ⟨m, hm, hw, hj⟩
      cases m with
      | zero => exact Or.inl ⟨by simpa using hw.symm, by omega⟩
      | succ m =>
        right
        exact ⟨m, by simp at hm; omega, by simpa using hw, by omega⟩

theorem lookup_buildIndexes_exists (s : List String) (w : String) (h : w ∈ s) :
    ∃ j, List.lookup w (Wordpath.buildIndexes s) = some j := by
  apply lookup_exists_of_mem_fst
  rw [Wordpath.buildIndexes, List.map_reverse, buildIndexesAux_map_fst, List.mem_reverse]
  exact h

theorem lookup_buildIndexes_some (s : List String) (w : String) (j : Nat)
    (h : List.lookup w (Wordpath.buildIndexes s) = some j) :
    j < s.length ∧ s.getD j "" = w := by
  have hmem := lookup_eq_some_mem _ _ _ h
  rw [Wordpath.buildIndexes, List.mem_reverse, mem_buildIndexesAux] at hmem
  rcases hmem with ⟨m, hm, hw, hj⟩
  exact ⟨by omega, by rw [hj]; simpa using hw⟩

theorem lookup_buildIndexes_nodup (s : List String) (hnd : s.Nodup) (i : Nat)
    (hi : i < s.length) :
    List.lookup (s.getD i "") (Wordpath.buildIndexes s) = some i := by
  have hmem : s.getD i "" ∈ s := by
    rw [List.getD_eq_getElem s "" hi]
    exact List.getElem_mem hi
  obtain ⟨j, hj⟩ := lookup_buildIndexes_exists s _ hmem
  obtain ⟨hjlt, hjw⟩ := lookup_buildIndexes_some s _ _ hj
  have : j = i := by
    have h1 : s[j] = s[i] := by
      rw [← List.getD_eq_getElem s "" hjlt, ← List.getD_eq_getElem s "" hi, hjw]
    exact (List.Nodup.getElem_inj_iff hnd).mp h1
  rw [hj, this]

/-! ## Graph construction lemmas: claims C8 and C4 -/

theorem add_edge_V (g : Graph) (v w : Nat) : (g.add_edge v w).V = g.V := rfl

theorem add_edge_len (g : Graph) (v w : Nat) :
    (g.add_edge v w).Adj.length = g.Adj.length := by
  simp [Graph.add_edge]

theorem adj_add_edge (g : Graph) (hlen : g.Adj.length = g.V) (v w : Nat)
    (hv : v < g.V) (hw : w < g.V) (i j : Nat) :
    j ∈ (g.add_edge v w).adj i ↔ j ∈ g.adj i ∨ (i = v ∧ j = w) ∨ (i = w ∧ j = v) := by
  show j ∈ ((g.Adj.set v (insert w (g.Adj.getD v ∅))).set w
      (insert v ((g.Adj.set v (insert w (g.Adj.getD v ∅))).getD w ∅))).getD i ∅ ↔
    j ∈ g.Adj.getD i ∅ ∨ (i = v ∧ j = w) ∨ (i = w ∧ j = v)
  simp only [getD_set, List.length_set, hlen]
  split_ifs with h1 h2 h3 <;> simp_all [Finset.mem_insert] <;> tauto

theorem adj_foldAddEdges (ps : List (Nat × Nat)) :
    ∀ (g : Graph), g.Adj.length = g.V → (∀ p ∈ ps, p.1 < g.V ∧ p.2 < g.V) →
      (foldAddEdges g ps).V = g.V ∧ (foldAddEdges g ps).Adj.length = g.V ∧
      ∀ i j, j ∈ (foldAddEdges g ps).adj i ↔
        j ∈ g.adj i ∨ (i, j) ∈ ps ∨ (j, i) ∈ ps := by
  induction ps with
  | nil =>
    intro g hlen _
    exact ⟨rfl, hlen, by simp [foldAddEdges]⟩
  | cons p t ih =>
    intro g hlen hps
    have hp := hps p (List.mem_cons_self p t)
    have hstep := adj_add_edge g hlen p.1 p.2 hp.1 hp.2
    have hlen' : (g.add_edge p.1 p.2).Adj.length = (g.add_edge p.1 p.2).V := by
      rw [add_edge_len, add_edge_V, hlen]
    have hps' : ∀ q ∈ t, q.1 < (g.add_edge p.1 p.2).V ∧ q.2 < (g.add_edge p.1 p.2).V := by
      intro q hq
      rw [add_edge_V]
      exact hps q (List.mem_cons_of_mem p hq)
    obtain ⟨hV, hL, hadj⟩ := ih (g.add_edge p.1 p.2) hlen' hps'
    have hfold : foldAddEdges g (p :: t) = foldAddEdges (g.add_edge p.1 p.2) t := rfl
    refine ⟨by rw [hfold, hV, add_edge_V], by rw [hfold, hL, add_edge_V], ?_⟩
    intro i j
    rw [hfold, hadj i j, hstep]
    simp only [List.mem_cons, Prod.ext_iff]
    constructor
    · rintro ((h | h | h) | h | h) <;> tauto
    · rintro (h | (h | h) | (h | h)) <;> tauto

/-- C8: for every graph built by a sequence of add_edge calls with valid
vertex indices, starting from the empty graph, adjacency is symmetric. -/
theorem c8_adjacency_symmetric (n : Nat) (ps : List (Nat × Nat))
    (hps : ∀ p ∈ ps, p.1 < n ∧ p.2 < n) (i j : Nat) :
    j ∈ (foldAddEdges (Graph.init n) ps).adj i ↔
      i ∈ (foldAddEdges (Graph.init n) ps).adj j := by
  have hlen : (Graph.init n).Adj.length = (Graph.init n).V := by
    simp [Graph.init]
  have hinit : ∀ a b : Nat, (b ∈ (Graph.init n).adj a) = False := by
    intro a b
    simp only [Graph.init, Graph.adj, getD_replicate, eq_iff_iff, iff_false]
    split <;> simp
  obtain ⟨-, -, hadj⟩ := adj_foldAddEdges ps (Graph.init n) hlen (by simpa [Graph.init] using hps)
  rw [hadj i j, hadj j i, hinit, hinit]
  tauto

theorem c8_witness :
    (∀ p ∈ [(0, 1), (1, 2)], p.1 < 3 ∧ p.2 < 3) ∧
      (1 ∈ (foldAddEdges (Graph.init 3) [(0, 1), (1, 2)]).adj 0 ↔
        0 ∈ (foldAddEdges (Graph.init 3) [(0, 1), (1, 2)]).adj 1) :=
  ⟨by decide, c8_adjacency_symmetric 3 [(0, 1), (1, 2)] (by decide) 0 1⟩

theorem lookupD_mem (subset : List String) (w : String) (hw : w ∈ subset) :
    Wordpath.lookupD (Wordpath.buildIndexes subset) w < subset.length ∧
      subset.getD (Wordpath.lookupD (Wordpath.buildIndexes subset) w) "" = w := by
  obtain ⟨m, hm⟩ := lookup_buildIndexes_exists subset w hw
  have h2 := lookup_buildIndexes_some subset w m hm
  rw [Wordpath.lookupD, hm]
  exact h2

theorem lookupD_nodup (subset : List String) (hnd : subset.Nodup) (i : Nat)
    (hi : i < subset.length) :
    Wordpath.lookupD (Wordpath.buildIndexes subset) (subset.getD i "") = i := by
  rw [Wordpath.lookupD, lookup_buildIndexes_nodup subset hnd i hi]
  rfl

theorem build_graph_ok (subset : List String) :
    Wordpath.build_graph subset = .ok (Wordpath.build_graph_total subset) := by
  have hstep : ∀ (g : Graph), ∀ w ∈ subset,
      (do
        let iw ← Wordpath.dictGet (Wordpath.buildIndexes subset) w
        let cms ← Wordpath.those_at_distance w subset 1
        cms.foldlM
          (fun g cm => do
            let icm ← Wordpath.dictGet (Wordpath.buildIndexes subset) cm
            pure (g.add_edge iw icm))
          g) =
      Except.ok ((Wordpath.those_at_distance_total w subset 1).foldl
          (fun g cm => g.add_edge (Wordpath.lookupD (Wordpath.buildIndexes subset) w)
            (Wordpath.lookupD (Wordpath.buildIndexes subset) cm)) g) := by
    intro g w hw
    obtain ⟨iw, hiw⟩ := lookup_buildIndexes_exists subset w hw
    have hdg : Wordpath.dictGet (Wordpath.buildIndexes subset) w = .ok iw := by
      rw [Wordpath.dictGet, hiw]
    have hiw' : Wordpath.lookupD (Wordpath.buildIndexes subset) w = iw := by
      rw [Wordpath.lookupD, hiw]
      rfl
    rw [hiw', hdg, those_at_distance_eq]
    refine foldlM_ok _
      (fun b cm => b.add_edge iw (Wordpath.lookupD (Wordpath.buildIndexes subset) cm))
      (Wordpath.those_at_distance_total w subset 1) g ?_
    intro b cm hcm
    have hcmmem : cm ∈ subset := ((mem_those_at_distance_total w subset 1 cm).mp hcm).1
    obtain ⟨icm, hicm⟩ := lookup_buildIndexes_exists subset cm hcmmem
    have hlcm : Wordpath.lookupD (Wordpath.buildIndexes subset) cm = icm := by
      rw [Wordpath.lookupD, hicm]
      rfl
    have hdg2 : Wordpath.dictGet (Wordpath.buildIndexes subset) cm = .ok icm := by
      rw [Wordpath.dictGet, hicm]
    show _ = Except.ok (b.add_edge iw (Wordpath.lookupD (Wordpath.buildIndexes subset) cm))
    rw [hlcm, hdg2]
    rfl
  show Wordpath.build_graph subset = _
  rw [show Wordpath.build_graph subset = subset.foldlM
      (fun g w => do
        let iw ← Wordpath.dictGet (Wordpath.buildIndexes subset) w
        let cms ← Wordpath.those_at_distance w subset 1
        cms.foldlM
          (fun g cm => do
            let icm ← Wordpath.dictGet (Wordpath.buildIndexes subset) cm
            pure (g.add_edge iw icm))
          g)
      (Graph.init subset.length) from rfl]
  rw [foldlM_ok _ (fun g w => (Wordpath.those_at_distance_total w subset 1).foldl
      (fun g cm => g.add_edge (Wordpath.lookupD (Wordpath.buildIndexes subset) w)
        (Wordpath.lookupD (Wordpath.buildIndexes subset) cm)) g)
    subset (Graph.init subset.length) hstep]
  congr 1
  show _ = foldAddEdges (Graph.init subset.length) (Wordpath.edge_pairs subset)
  rw [foldAddEdges, Wordpath.edge_pairs]
  exact foldl_nested_flatMap subset (fun w => Wordpath.those_at_distance_total w subset 1)
    (fun w cm => (Wordpath.lookupD (Wordpath.buildIndexes subset) w,
      Wordpath.lookupD (Wordpath.buildIndexes subset) cm))
    (fun g p => g.add_edge p.1 p.2) (Graph.init subset.length)

theorem mem_edge_pairs (subset : List String) (a b : Nat) :
    (a, b) ∈ Wordpath.edge_pairs subset ↔
      ∃ w, w ∈ subset ∧ ∃ cm, cm ∈ Wordpath.those_at_distance_total w subset 1 ∧
        Wordpath.lookupD (Wordpath.buildIndexes subset) w = a ∧
        Wordpath.lookupD (Wordpath.buildIndexes subset) cm = b := by
  rw [Wordpath.edge_pairs, List.mem_flatMap]
  constructor
  · rintro ⟨w, hw, hmem⟩
    rw [List.mem_map] at hmem
    obtain ⟨cm, hcm, heq⟩ := hmem
    have h1 : Wordpath.lookupD (Wordpath.buildIndexes subset) w = a := congrArg Prod.fst heq
    have h2 : Wordpath.lookupD (Wordpath.buildIndexes subset) cm = b := congrArg Prod.snd heq
    exact ⟨w, hw, cm, hcm, h1, h2⟩
  · rintro ⟨w, hw, cm, hcm, h1, h2⟩
    refine ⟨w, hw, List.mem_map.mpr ⟨cm, hcm, ?_⟩⟩
    rw [h1, h2]

/-- C4 counterexample: with the candidate subset aaa, aab, aaa (the
candidate subset that find_word_path computes from the dictionary
[aaa, aab, aaa] for a three-letter origin), the duplicate word makes
the index dict map aaa to position 2, so no edge ever touches vertex 0:
vertex 1 is not adjacent to vertex 0 even though the words at positions 0
and 1 are at Hamming distance exactly 1. -/
theorem c4_counterexample :
    Wordpath.candidate_subset ["aaa", "aab", "aaa"] "aaa" = ["aaa", "aab", "aaa"] ∧
    ∃ g, Wordpath.build_graph ["aaa", "aab", "aaa"] = .ok g ∧
      1 ∉ g.adj 0 ∧
      Wordpath.hamming_distance (["aaa", "aab", "aaa"].getD 0 "")
        (["aaa", "aab", "aaa"].getD 1 "") = .ok 1 :=
  ⟨by decide, _, rfl, by decide, by decide⟩

/-- C4 (amended): for a candidate subset without duplicate words, the graph
built by find_word_path has j adjacent to i exactly when the words at
positions i and j are at Hamming distance 1. -/
theorem c4_adjacency_iff_distance_one (subset : List String) (hnd : subset.Nodup)
    (i j : Nat) (hi : i < subset.length) (hj : j < subset.length) :
    ∃ g, Wordpath.build_graph subset = .ok g ∧
      (j ∈ g.adj i ↔
        Wordpath.hamming_distance (subset.getD i "") (subset.getD j "") = .ok 1) := by
  refine ⟨_, build_graph_ok subset, ?_⟩
  have hlen : (Graph.init subset.length).Adj.length = (Graph.init subset.length).V := by
    simp [Graph.init]
  have hpairs : ∀ p ∈ Wordpath.edge_pairs subset,
      p.1 < (Graph.init subset.length).V ∧ p.2 < (Graph.init subset.length).V := by
    intro p hp
    obtain ⟨pa, pb⟩ := p
    rw [mem_edge_pairs] at hp
    obtain ⟨w, hw, cm, hcm, h1, h2⟩ := hp
    have hcmmem : cm ∈ subset := ((mem_those_at_distance_total w subset 1 cm).mp hcm).1
    have hwm := lookupD_mem subset w hw
    have hcm2 := lookupD_mem subset cm hcmmem
    rw [h1] at hwm
    rw [h2] at hcm2
    exact ⟨hwm.1, hcm2.1⟩
  obtain ⟨-, -, hadj⟩ :=
    adj_foldAddEdges (Wordpath.edge_pairs subset) (Graph.init subset.length) hlen hpairs
  have hinit : j ∉ (Graph.init subset.length).adj i := by
    simp only [Graph.init, Graph.adj, getD_replicate]
    split <;> simp
  rw [show Wordpath.build_graph_total subset =
    foldAddEdges (Graph.init subset.length) (Wordpath.edge_pairs subset) from rfl, hadj i j]
  constructor
  · rintro (habs | hij | hji)
    · exact absurd habs hinit
    · rw [mem_edge_pairs] at hij
      obtain ⟨w, hw, cm, hcm, h1, h2⟩ := hij
      obtain ⟨hcmm, hcmne, hham⟩ := (mem_those_at_distance_total w subset 1 cm).mp hcm
      have hwm := lookupD_mem subset w hw
      have hcm2 := lookupD_mem subset cm hcmm
      rw [h1] at hwm
      rw [h2] at hcm2
      rw [hwm.2, hcm2.2]
      exact hham
    · rw [mem_edge_pairs] at hji
      obtain ⟨w, hw, cm, hcm, h1, h2⟩ := hji
      obtain ⟨hcmm, hcmne, hham⟩ := (mem_those_at_distance_total w subset 1 cm).mp hcm
      have hwm := lookupD_mem subset w hw
      have hcm2 := lookupD_mem subset cm hcmm
      rw [h1] at hwm
      rw [h2] at hcm2
      rw [hwm.2, hcm2.2]
      exact hamming_distance_ok_comm w cm 1 hham
  · intro hham
    refine Or.inr (Or.inl ?_)
    rw [mem_edge_pairs]
    refine ⟨subset.getD i "", ?_, subset.getD j "", ?_, ?_, ?_⟩
    · rw [List.getD_eq_getElem subset "" hi]
      exact List.getElem_mem hi
    · rw [mem_those_at_distance_total]
      refine ⟨?_, Ne.symm (hamming_distance_ne _ _ hham), hham⟩
      rw [List.getD_eq_getElem subset "" hj]
      exact List.getElem_mem hj
    · exact lookupD_nodup subset hnd i hi
    · exact lookupD_nodup subset hnd j hj

theorem c4_witness :
    ["aaa", "aab"].Nodup ∧ 0 < (["aaa", "aab"] : List String).length ∧
      1 < (["aaa", "aab"] : List String).length ∧
      ∃ g, Wordpath.build_graph ["aaa", "aab"] = .ok g ∧
        (1 ∈ g.adj 0 ↔
          Wordpath.hamming_distance (["aaa", "aab"].getD 0 "")
            (["aaa", "aab"].getD 1 "") = .ok 1) :=
  ⟨by decide, by decide, by decide,
    c4_adjacency_iff_distance_one ["aaa", "aab"] (by decide) 0 1 (by decide) (by decide)⟩

/-! ## BFS state lemmas -/

theorem MarkedP_set_true (m : List Bool) (w v : Nat) (hw : w < m.length) :
    MarkedP (m.set w true) v ↔ MarkedP m v ∨ v = w := by
  rw [MarkedP, MarkedP, getD_set]
  by_cases hvw : w = v
  · subst hvw
    simp [hw]
  · have h2 : ¬(v = w) := fun h => hvw h.symm
    simp [hvw, h2]

theorem parentOf_set_self (e : List Int) (w v : Nat) (hw : w < e.length) :
    parentOf (e.set w (v : Int)) w = some v := by
  rw [parentOf, getD_set]
  simp [hw, Int.toNat']

theorem parentOf_set_ne (e : List Int) (w : Nat) (x : Int) (u : Nat) (h : w ≠ u) :
    parentOf (e.set w x) u = parentOf e u := by
  rw [parentOf, parentOf, getD_set]
  simp [h]

theorem bfsVisit_Marked_length (v : Nat) (ws : List Nat) (st : BfsState) :
    (bfsVisit v ws st).Marked.length = st.Marked.length := by
  induction ws generalizing st with
  | nil => rfl
  | cons w rest ih =>
    rw [bfsVisit]
    split
    · exact ih st
    · split
      · simp [ih, List.length_set]
      · exact ih st

theorem bfsVisit_EdgeTo_length (v : Nat) (ws : List Nat) (st : BfsState) :
    (bfsVisit v ws st).EdgeTo.length = st.EdgeTo.length := by
  induction ws generalizing st with
  | nil => rfl
  | cons w rest ih =>
    rw [bfsVisit]
    split
    · exact ih st
    · split
      · simp [ih, List.length_set]
      · exact ih st

theorem bfsVisit_measure (v : Nat) (ws : List Nat) (st : BfsState) :
    bfsMeasure (bfsVisit v ws st) ≤ bfsMeasure st := by
  induction ws generalizing st with
  | nil => exact le_refl _
  | cons w rest ih =>
    rw [bfsVisit]
    split
    · exact ih st
    · rename_i hmk
      split
      · rename_i hlt
        refine le_trans (ih _) ?_
        have hcount := count_false_set st.Marked w (by rwa [Bool.not_eq_true] at hmk) hlt
        rw [bfsMeasure, bfsMeasure]
        simp only [List.length_append, List.length_cons, List.length_nil]
        omega
      · exact ih st

theorem midInv_to_inv (n : Nat) (adjf : Nat → List Nat) (s v : Nat) (st : BfsState)
    (dd : Nat → Nat) (h : BfsMidInv n adjf s v [] st dd) : BfsInv n adjf s st dd :=
  { mlen := h.mlen
    elen := h.elen
    smark := h.smark
    sdd := h.sdd
    qmark := h.qmark
    qnodup := h.qnodup
    qpair := h.qpair
    qbound := h.qbound
    mlt := h.mlt
    parent := h.parent
    ddzero := h.ddzero
    processed := by
      intro u hu hq w hw
      by_cases huv : u = v
      · subst huv
        exact h.procV w hw (List.not_mem_nil w)
      · exact h.procOther u hu hq huv w hw }

theorem marked_init_iff (n s : Nat) (hs : s < n) (u : Nat) :
    MarkedP ((List.replicate n false).set s true) u ↔ u = s := by
  rw [MarkedP, getD_set]
  by_cases h : s = u
  · subst h
    simp [List.length_replicate, hs]
  · have h2 : ¬(u = s) := fun hh => h hh.symm
    simp [h, getD_replicate, h2]

theorem bfsInv_init (n : Nat) (adjf : Nat → List Nat) (s : Nat) (hs : s < n) :
    BfsInv n adjf s
      ⟨(List.replicate n false).set s true, List.replicate n (-1), [s]⟩ (fun _ => 0) :=
  { mlen := by simp [List.length_set, List.length_replicate]
    elen := by simp [List.length_replicate]
    smark := (marked_init_iff n s hs s).mpr rfl
    sdd := rfl
    qmark := by
      intro u hu
      rw [List.mem_singleton] at hu
      rw [hu]
      exact (marked_init_iff n s hs s).mpr rfl
    qnodup := List.nodup_singleton s
    qpair := List.pairwise_singleton _ s
    qbound := fun w u _ _ => by omega
    mlt := fun u hu => by rw [(marked_init_iff n s hs u).mp hu]; exact hs
    parent := fun u hu hne => absurd ((marked_init_iff n s hs u).mp hu) hne
    ddzero := fun u hu _ => (marked_init_iff n s hs u).mp hu
    processed := by
      intro u hu hq w _
      exact absurd (by rw [(marked_init_iff n s hs u).mp hu]; exact List.mem_singleton.mpr rfl) hq }

theorem bfsVisit_inv (n : Nat) (adjf : Nat → List Nat) (s : Nat) (v : Nat)
    (Hrange : ∀ u, u < n → ∀ w ∈ adjf u, w < n) :
    ∀ (ws : List Nat) (st : BfsState) (dd : Nat → Nat),
      (∀ w ∈ ws, w ∈ adjf v) →
      BfsMidInv n adjf s v ws st dd →
      ∃ dd', BfsMidInv n adjf s v [] (bfsVisit v ws st) dd' := by
  intro ws
  induction ws with
  | nil =>
    intro st dd _ hinv
    exact ⟨dd, hinv⟩
  | cons w rest ih =>
    intro st dd hws hinv
    by_cases hmk : st.Marked.getD w false = true
    · have hred : bfsVisit v (w :: rest) st = bfsVisit v rest st := by
        rw [bfsVisit, if_pos hmk]
      rw [hred]
      refine ih st dd (fun x hx => hws x (List.mem_cons_of_mem w hx)) ?_
      exact
        { mlen := hinv.mlen, elen := hinv.elen, smark := hinv.smark, sdd := hinv.sdd
          qmark := hinv.qmark, qnodup := hinv.qnodup, qpair := hinv.qpair
          qbound := hinv.qbound, mlt := hinv.mlt, parent := hinv.parent
          ddzero := hinv.ddzero, vmark := hinv.vmark, vlt := hinv.vlt
          vnotq := hinv.vnotq, vbound := hinv.vbound, qlow := hinv.qlow
          procOther := hinv.procOther
          procV := by
            intro x hx hnx
            by_cases hxw : x = w
            · rw [hxw]
              exact ⟨hmk, hinv.vbound w hmk⟩
            · exact hinv.procV x hx (by simp [List.mem_cons, hxw, hnx]) }
    · have hmkf : st.Marked.getD w false = false := by
        rwa [Bool.not_eq_true] at hmk
      have hwadj : w ∈ adjf v := hws w (List.mem_cons_self w rest)
      have hwn : w < n := Hrange v hinv.vlt w hwadj
      have hwlen : w < st.Marked.length := by rw [hinv.mlen]; exact hwn
      have hwelen : w < st.EdgeTo.length := by rw [hinv.elen]; exact hwn
      have hwnotmk : ¬ MarkedP st.Marked w := by rw [MarkedP, hmkf]; simp
      have hmne : ∀ x, MarkedP st.Marked x → x ≠ w := fun x hx h => hwnotmk (h ▸ hx)
      have hwns : w ≠ s := fun h => hwnotmk (by rw [h]; exact hinv.smark)
      have hwnv : w ≠ v := fun h => hwnotmk (by rw [h]; exact hinv.vmark)
      have hwnq : w ∉ st.queue := fun h => hwnotmk (hinv.qmark w h)
      have hred : bfsVisit v (w :: rest) st =
          bfsVisit v rest ⟨st.Marked.set w true, st.EdgeTo.set w (v : Int), st.queue ++ [w]⟩ := by
        rw [bfsVisit, if_neg hmk, if_pos hwlen]
      rw [hred]
      set dd2 : Nat → Nat := fun x => if x = w then dd v + 1 else dd x with hdd2
      have hdd2w : dd2 w = dd v + 1 := by rw [hdd2]; simp
      have hdd2ne : ∀ x, x ≠ w → dd2 x = dd x := fun x hx => by rw [hdd2]; simp [hx]
      refine ih ⟨st.Marked.set w true, st.EdgeTo.set w (v : Int), st.queue ++ [w]⟩ dd2
        (fun x hx => hws x (List.mem_cons_of_mem w hx)) ?_
      exact
        { mlen := by simp [List.length_set, hinv.mlen]
          elen := by simp [List.length_set, hinv.elen]
          smark := (MarkedP_set_true st.Marked w s hwlen).mpr (Or.inl hinv.smark)
          sdd := by
            rw [hdd2ne s (fun h => hwns h.symm)]
            exact hinv.sdd
          qmark := by
            intro u hu
            rw [List.mem_append] at hu
            rcases hu with hu | hu
            · exact (MarkedP_set_true st.Marked w u hwlen).mpr (Or.inl (hinv.qmark u hu))
            · rw [List.mem_singleton] at hu
              exact (MarkedP_set_true st.Marked w u hwlen).mpr (Or.inr hu)
          qnodup := by
            rw [List.nodup_append]
            refine ⟨hinv.qnodup, List.nodup_singleton w, ?_⟩
            intro a ha hb
            rw [List.mem_singleton] at hb
            rw [hb] at ha
            exact hwnq ha
          qpair := by
            rw [List.pairwise_append]
            refine ⟨?_, List.pairwise_singleton _ w, ?_⟩
            · refine List.Pairwise.imp_of_mem ?_ hinv.qpair
              intro a b ha hb hab
              rw [hdd2ne a (fun h => hwnq (h ▸ ha)), hdd2ne b (fun h => hwnq (h ▸ hb))]
              exact hab
            · intro a ha b hb
              rw [List.mem_singleton] at hb
              rw [hb, hdd2w, hdd2ne a (fun h => hwnq (h ▸ ha))]
              exact hinv.vbound a (hinv.qmark a ha)
          qbound := by
            intro x u hx hu
            have hx' := (MarkedP_set_true st.Marked w x hwlen).mp hx
            rw [List.mem_append] at hu
            rcases hu with hu | hu
            · have hnu : u ≠ w := fun h => hwnq (h ▸ hu)
              rw [hdd2ne u hnu]
              rcases hx' with hx' | hx'
              · rw [hdd2ne x (hmne x hx')]
                exact hinv.qbound x u hx' hu
              · rw [hx', hdd2w]
                have := hinv.qlow u hu
                omega
            · rw [List.mem_singleton] at hu
              rw [hu, hdd2w]
              rcases hx' with hx' | hx'
              · rw [hdd2ne x (hmne x hx')]
                have := hinv.vbound x hx'
                omega
              · rw [hx', hdd2w]
                omega
          mlt := by
            intro u hu
            rcases (MarkedP_set_true st.Marked w u hwlen).mp hu with h | h
            · exact hinv.mlt u h
            · rw [h]
              exact hwn
          parent := by
            intro u hu hus
            rcases (MarkedP_set_true st.Marked w u hwlen).mp hu with h | h
            · obtain ⟨p, hp, hpm, hpa, hpd⟩ := hinv.parent u h hus
              have hpw : p ≠ w := hmne p hpm
              have huw : u ≠ w := hmne u h
              refine ⟨p, ?_, (MarkedP_set_true st.Marked w p hwlen).mpr (Or.inl hpm), hpa, ?_⟩
              · rw [parentOf_set_ne st.EdgeTo w (v : Int) u (fun hh => huw hh.symm)]
                exact hp
              · rw [hdd2ne u huw, hdd2ne p hpw]
                exact hpd
            · rw [h]
              refine ⟨v, parentOf_set_self st.EdgeTo w v hwelen,
                (MarkedP_set_true st.Marked w v hwlen).mpr (Or.inl hinv.vmark), hwadj, ?_⟩
              rw [hdd2w, hdd2ne v (Ne.symm hwnv)]
          ddzero := by
            intro u hu hz
            rcases (MarkedP_set_true st.Marked w u hwlen).mp hu with h | h
            · rw [hdd2ne u (hmne u h)] at hz
              exact hinv.ddzero u h hz
            · rw [h, hdd2w] at hz
              omega
          vmark := (MarkedP_set_true st.Marked w v hwlen).mpr (Or.inl hinv.vmark)
          vlt := hinv.vlt
          vnotq := by
            rw [List.mem_append, List.mem_singleton]
            rintro (h | h)
            · exact hinv.vnotq h
            · exact (Ne.symm hwnv) h
          vbound := by
            intro x hx
            rw [hdd2ne v (Ne.symm hwnv)]
            rcases (MarkedP_set_true st.Marked w x hwlen).mp hx with h | h
            · rw [hdd2ne x (hmne x h)]
              exact hinv.vbound x h
            · rw [h, hdd2w]
          qlow := by
            intro u hu
            rw [hdd2ne v (Ne.symm hwnv)]
            rw [List.mem_append, List.mem_singleton] at hu
            rcases hu with hu | hu
            · rw [hdd2ne u (fun hh => hwnq (hh ▸ hu))]
              exact hinv.qlow u hu
            · rw [hu, hdd2w]
              omega
          procOther := by
            intro u hu hq hune
            have hq1 : u ∉ st.queue := fun hh => hq (List.mem_append.mpr (Or.inl hh))
            have hq2 : u ≠ w := fun hh =>
              hq (List.mem_append.mpr (Or.inr (List.mem_singleton.mpr hh)))
            rcases (MarkedP_set_true st.Marked w u hwlen).mp hu with h | h
            · intro x hx
              obtain ⟨hxm, hxd⟩ := hinv.procOther u h hq1 hune x hx
              refine ⟨(MarkedP_set_true st.Marked w x hwlen).mpr (Or.inl hxm), ?_⟩
              rw [hdd2ne x (hmne x hxm), hdd2ne u (hmne u h)]
              exact hxd
            · exact absurd h hq2
          procV := by
            intro x hx hnx
            by_cases hxw : x = w
            · rw [hxw]
              refine ⟨(MarkedP_set_true st.Marked w w hwlen).mpr (Or.inr rfl), ?_⟩
              rw [hdd2w, hdd2ne v (Ne.symm hwnv)]
            · have hx' : x ∉ w :: rest := by simp [List.mem_cons, hxw, hnx]
              obtain ⟨hxm, hxd⟩ := hinv.procV x hx hx'
              refine ⟨(MarkedP_set_true st.Marked w x hwlen).mpr (Or.inl hxm), ?_⟩
              rw [hdd2ne x (hmne x hxm), hdd2ne v (Ne.symm hwnv)]
              exact hxd }

theorem bfsLoop_inv (n : Nat) (adjf : Nat → List Nat) (s : Nat)
    (Hrange : ∀ u, u < n → ∀ w ∈ adjf u, w < n) :
    ∀ (fuel : Nat) (st : BfsState) (dd : Nat → Nat),
      bfsMeasure st ≤ fuel → BfsInv n adjf s st dd →
      ∃ dd', BfsInv n adjf s (bfsLoop adjf fuel st) dd' ∧
        (bfsLoop adjf fuel st).queue = [] := by
  intro fuel
  induction fuel with
  | zero =>
    intro st dd hm hinv
    have hq : st.queue = [] := by
      rw [bfsMeasure] at hm
      have hl : st.queue.length = 0 := by omega
      exact List.length_eq_zero.mp hl
    exact ⟨dd, hinv, hq⟩
  | succ fuel ih =>
    intro st dd hm hinv
    cases hq : st.queue with
    | nil =>
      have hred : bfsLoop adjf (fuel + 1) st = st := by
        rw [bfsLoop, hq]
      rw [hred]
      exact ⟨dd, hinv, hq⟩
    | cons v rest =>
      have hred : bfsLoop adjf (fuel + 1) st =
          bfsLoop adjf fuel (bfsVisit v (adjf v) ⟨st.Marked, st.EdgeTo, rest⟩) := by
        rw [bfsLoop, hq]
      rw [hred]
      have hvq : v ∈ st.queue := by rw [hq]; exact List.mem_cons_self v rest
      have hvmark : MarkedP st.Marked v := hinv.qmark v hvq
      have hnodup := hinv.qnodup
      rw [hq] at hnodup
      have hqpair := hinv.qpair
      rw [hq] at hqpair
      have hmid : BfsMidInv n adjf s v (adjf v) ⟨st.Marked, st.EdgeTo, rest⟩ dd :=
        { mlen := hinv.mlen, elen := hinv.elen, smark := hinv.smark, sdd := hinv.sdd
          qmark := fun u hu => hinv.qmark u (by rw [hq]; exact List.mem_cons_of_mem v hu)
          qnodup := (List.nodup_cons.mp hnodup).2
          qpair := (List.pairwise_cons.mp hqpair).2
          qbound := fun x u hx hu =>
            hinv.qbound x u hx (by rw [hq]; exact List.mem_cons_of_mem v hu)
          mlt := hinv.mlt, parent := hinv.parent, ddzero := hinv.ddzero
          vmark := hvmark
          vlt := hinv.mlt v hvmark
          vnotq := (List.nodup_cons.mp hnodup).1
          vbound := fun x hx => hinv.qbound x v hx hvq
          qlow := (List.pairwise_cons.mp hqpair).1
          procOther := fun u hu hur hunv x hx =>
            hinv.processed u hu (by rw [hq]; simp [List.mem_cons, hunv, hur]) x hx
          procV := fun x hx hnx => absurd hx hnx }
      obtain ⟨dd2, hmid2⟩ :=
        bfsVisit_inv n adjf s v Hrange (adjf v) ⟨st.Marked, st.EdgeTo, rest⟩ dd
          (fun x hx => hx) hmid
      have hinv2 := midInv_to_inv n adjf s v _ dd2 hmid2
      have hm2 : bfsMeasure (bfsVisit v (adjf v) ⟨st.Marked, st.EdgeTo, rest⟩) ≤ fuel := by
        have h1 := bfsVisit_measure v (adjf v) ⟨st.Marked, st.EdgeTo, rest⟩
        have h2 : bfsMeasure (⟨st.Marked, st.EdgeTo, rest⟩ : BfsState) + 1 = bfsMeasure st := by
          rw [bfsMeasure, bfsMeasure, hq]
          simp only [List.length_cons]
          omega
        omega
      exact ih _ dd2 hm2 hinv2

theorem mem_adjEnum (g : Graph) (u w : Nat) :
    w ∈ g.adjEnum u ↔ w < g.V ∧ w ∈ g.adj u := by
  rw [Graph.adjEnum, List.mem_filter, List.mem_range]
  simp

theorem adjEnum_lt (g : Graph) : ∀ u, u < g.V → ∀ w ∈ g.adjEnum u, w < g.V :=
  fun u _ w hw => ((mem_adjEnum g u w).mp hw).1

theorem bfs_run_inv (g : Graph) (s : Nat) (hs : s < g.V) :
    ∃ dd, BfsInv g.V g.adjEnum s
        (bfsLoop g.adjEnum (2 * g.V + 1)
          ⟨(List.replicate g.V false).set s true, List.replicate g.V (-1), [s]⟩) dd ∧
      (bfsLoop g.adjEnum (2 * g.V + 1)
          ⟨(List.replicate g.V false).set s true, List.replicate g.V (-1), [s]⟩).queue = [] := by
  have hinit := bfsInv_init g.V g.adjEnum s hs
  have hm : bfsMeasure
      ⟨(List.replicate g.V false).set s true, List.replicate g.V (-1), [s]⟩ ≤ 2 * g.V + 1 := by
    rw [bfsMeasure]
    have h1 : ((List.replicate g.V false).set s true).count false ≤
        ((List.replicate g.V false).set s true).length :=
      List.count_le_length false _
    rw [List.length_set, List.length_replicate] at h1
    simp only [List.length_cons, List.length_nil]
    omega
  exact bfsLoop_inv g.V g.adjEnum s (adjEnum_lt g) (2 * g.V + 1) _ _ hm hinit

theorem pathToChain_of_inv (n : Nat) (adjf : Nat → List Nat) (s : Nat) (st : BfsState)
    (dd : Nat → Nat) (hinv : BfsInv n adjf s st dd) :
    ∀ (k : Nat) (v : Nat), MarkedP st.Marked v → dd v ≤ k →
      ∀ fuel, k < fuel →
      ∃ p, pathToChain st.EdgeTo s fuel v = some p ∧
        p.head? = some v ∧ p.getLast? = some s ∧
        List.Chain' (fun a b => a ∈ adjf b) p ∧
        p.length = dd v + 1 ∧ (∀ x ∈ p, MarkedP st.Marked x ∧ dd x ≤ dd v) ∧ p.Nodup := by
  have hbase : ∀ fuel, 0 < fuel →
      ∃ p, pathToChain st.EdgeTo s fuel s = some p ∧
        p.head? = some s ∧ p.getLast? = some s ∧
        List.Chain' (fun a b => a ∈ adjf b) p ∧
        p.length = dd s + 1 ∧ (∀ x ∈ p, MarkedP st.Marked x ∧ dd x ≤ dd s) ∧ p.Nodup := by
    intro fuel hf
    cases fuel with
    | zero => omega
    | succ fuel =>
      refine ⟨[s], ?_, rfl, rfl, List.chain'_singleton s, ?_, ?_, List.nodup_singleton s⟩
      · rw [pathToChain, if_pos rfl]
      · rw [hinv.sdd]
        simp
      · intro x hx
        rw [List.mem_singleton] at hx
        rw [hx]
        exact ⟨hinv.smark, le_refl _⟩
  intro k
  induction k with
  | zero =>
    intro v hv hd fuel hf
    have hvs : v = s := hinv.ddzero v hv (Nat.le_zero.mp hd)
    rw [hvs]
    exact hbase fuel hf
  | succ k ihk =>
    intro v hv hd fuel hf
    by_cases hvs : v = s
    · rw [hvs]
      exact hbase fuel (by omega)
    · obtain ⟨u, hpar, humk, hadj, hdd⟩ := hinv.parent v hv hvs
      have hdu : dd u ≤ k := by omega
      cases fuel with
      | zero => omega
      | succ fuel =>
        have hfu : k < fuel := by omega
        obtain ⟨p, hp, hph, hpl, hpc, hplen, hpm, hpnd⟩ := ihk u humk hdu fuel hfu
        refine ⟨v :: p, ?_, rfl, ?_, ?_, ?_, ?_, ?_⟩
        · rw [pathToChain, if_neg hvs]
          rw [show (st.EdgeTo.getD v (-1)).toNat' = some u from hpar]
          show Option.map (fun t => v :: t) (pathToChain st.EdgeTo s fuel u) = some (v :: p)
          rw [hp]
          rfl
        · cases p with
          | nil => simp at hph
          | cons a t =>
            rw [List.getLast?_cons_cons]
            exact hpl
        · rw [List.chain'_cons']
          refine ⟨?_, hpc⟩
          intro y hy
          rw [hph] at hy
          have hyu : y = u := by
            cases hy
            rfl
          rw [hyu]
          exact hadj
        · rw [List.length_cons, hplen]
          omega
        · intro x hx
          rw [List.mem_cons] at hx
          rcases hx with hx | hx
          · rw [hx]
            exact ⟨hv, le_refl _⟩
          · obtain ⟨hxm, hxd⟩ := hpm x hx
            exact ⟨hxm, by omega⟩
        · rw [List.nodup_cons]
          refine ⟨?_, hpnd⟩
          intro hvp
          obtain ⟨-, hxd⟩ := hpm v hvp
          omega

theorem pathTo_of_inv (n : Nat) (adjf : Nat → List Nat) (s : Nat) (st : BfsState)
    (dd : Nat → Nat) (hinv : BfsInv n adjf s st dd) (v : Nat)
    (hv : MarkedP st.Marked v) :
    ∃ p, pathToChain st.EdgeTo s (st.Marked.length + 1) v = some p ∧
      p.head? = some v ∧ p.getLast? = some s ∧
      List.Chain' (fun a b => a ∈ adjf b) p ∧
      p.length = dd v + 1 ∧ (∀ x ∈ p, MarkedP st.Marked x) := by
  obtain ⟨p, hp, hph, hpl, hpc, hplen, hpm, hpnd⟩ :=
    pathToChain_of_inv n adjf s st dd hinv (dd v) v hv (le_refl _) (dd v + 1) (by omega)
  have hsub : ∀ x ∈ p, x < n := fun x hx => hinv.mlt x ((hpm x hx).1)
  have hlen_le : p.length ≤ n := by
    have h1 : p.toFinset.card = p.length := List.toFinset_card_of_nodup hpnd
    have h2 : p.toFinset ⊆ Finset.range n := by
      intro x hx
      exact Finset.mem_range.mpr (hsub x (List.mem_toFinset.mp hx))
    have h3 := Finset.card_le_card h2
    rw [h1, Finset.card_range] at h3
    exact h3
  have hddlt : dd v < st.Marked.length + 1 := by
    rw [hinv.mlen]
    rw [hplen] at hlen_le
    omega
  obtain ⟨q, hq, hqh, hql, hqc, hqlen, hqm, -⟩ :=
    pathToChain_of_inv n adjf s st dd hinv (dd v) v hv (le_refl _)
      (st.Marked.length + 1) hddlt
  exact ⟨q, hq, hqh, hql, hqc, hqlen, fun x hx => (hqm x hx).1⟩

theorem bfs_lower_bound (n : Nat) (adjf : Nat → List Nat) (s : Nat) (st : BfsState)
    (dd : Nat → Nat) (hinv : BfsInv n adjf s st dd) (hq : st.queue = []) :
    ∀ (p : List Nat) (v : Nat), MarkedP st.Marked v →
      List.Chain (fun a b => b ∈ adjf a) v p →
      ∀ z, (v :: p).getLast? = some z → MarkedP st.Marked z ∧ dd z ≤ dd v + p.length := by
  intro p
  induction p with
  | nil =>
    intro v hv _ z hz
    rw [List.getLast?_singleton] at hz
    have hvz : v = z := Option.some_inj.mp hz
    rw [← hvz]
    exact ⟨hv, by omega⟩
  | cons u p' ih =>
    intro v hv hc z hz
    rw [List.chain_cons] at hc
    have hproc := hinv.processed v hv (by rw [hq]; exact List.not_mem_nil v) u hc.1
    have hz' : (u :: p').getLast? = some z := by
      rw [← hz, List.getLast?_cons_cons]
    obtain ⟨hzm, hzd⟩ := ih u hproc.1 hc.2 z hz'
    refine ⟨hzm, ?_⟩
    rw [List.length_cons]
    have := hproc.2
    omega

theorem chain_adj_to_enum (g : Graph) (hg : ∀ u, u < g.V → ∀ w ∈ g.adj u, w < g.V) :
    ∀ (p : List Nat) (v : Nat), v < g.V →
      List.Chain (fun a b => b ∈ g.adj a) v p →
      List.Chain (fun a b => b ∈ g.adjEnum a) v p := by
  intro p
  induction p with
  | nil => exact fun v _ _ => List.Chain.nil
  | cons u p' ih =>
    intro v hv hc
    rw [List.chain_cons] at hc
    have hu : u < g.V := hg v hv u hc.1
    exact List.chain_cons.mpr ⟨(mem_adjEnum g v u).mpr ⟨hu, hc.1⟩, ih u hu hc.2⟩

/-- C1: for every graph whose adjacency sets contain only valid vertices,
every source vertex s, and every vertex v marked Visited by the
breadth-first search, path_to returns a sequence that starts at s, ends
at v, follows graph adjacency at every consecutive pair, and has minimal
length among all such sequences: breadth-first-search shortest-path
optimality. -/
theorem c1_bfs_shortest_path (g : Graph) (s v : Nat)
    (hg : ∀ u, u < g.V → ∀ w ∈ g.adj u, w < g.V) (hs : s < g.V)
    (hv : (BreadthFirstPaths.run g s).has_path_to v = true) :
    ∃ p, (BreadthFirstPaths.run g s).path_to v = .ok p ∧
      p.head? = some s ∧ p.getLast? = some v ∧
      List.Chain' (fun a b => b ∈ g.adj a) p ∧
      (∀ q, q.head? = some s → q.getLast? = some v →
        List.Chain' (fun a b => b ∈ g.adj a) q → p.length ≤ q.length) := by
  obtain ⟨dd, hinv, hqe⟩ := bfs_run_inv g s hs
  have hmv : MarkedP (bfsLoop g.adjEnum (2 * g.V + 1)
      ⟨(List.replicate g.V false).set s true, List.replicate g.V (-1), [s]⟩).Marked v := hv
  obtain ⟨pc, hpc, hh, hl, hcc, hlen, hpmarks⟩ :=
    pathTo_of_inv g.V g.adjEnum s _ dd hinv v hmv
  refine ⟨pc.reverse, ?_, ?_, ?_, ?_, ?_⟩
  · rw [BreadthFirstPaths.path_to, if_pos hv]
    rw [show pathToChain (BreadthFirstPaths.run g s).EdgeTo (BreadthFirstPaths.run g s).S
        ((BreadthFirstPaths.run g s).Marked.length + 1) v = some pc from hpc]
  · rw [List.head?_reverse]
    exact hl
  · rw [List.getLast?_reverse]
    exact hh
  · rw [List.chain'_reverse]
    refine List.Chain'.imp ?_ hcc
    intro a b hab
    exact ((mem_adjEnum g b a).mp hab).2
  · intro q hqh hql hqc
    cases q with
    | nil => simp at hqh
    | cons a q' =>
      have ha : a = s := by
        rw [List.head?_cons] at hqh
        exact Option.some_inj.mp hqh
      rw [ha] at hqc hql
      have hchain : List.Chain (fun a b => b ∈ g.adj a) s q' := hqc
      have hchainE := chain_adj_to_enum g hg q' s hs hchain
      obtain ⟨hzm, hzd⟩ :=
        bfs_lower_bound g.V g.adjEnum s _ dd hinv hqe q' s hinv.smark hchainE v hql
      rw [List.length_reverse, hlen, List.length_cons]
      rw [hinv.sdd] at hzd
      omega

theorem c1_witness :
    (∀ u, u < ((Graph.init 2).add_edge 0 1).V →
        ∀ w ∈ ((Graph.init 2).add_edge 0 1).adj u, w < ((Graph.init 2).add_edge 0 1).V) ∧
    0 < ((Graph.init 2).add_edge 0 1).V ∧
    (BreadthFirstPaths.run ((Graph.init 2).add_edge 0 1) 0).has_path_to 1 = true ∧
    (∃ p, (BreadthFirstPaths.run ((Graph.init 2).add_edge 0 1) 0).path_to 1 = .ok p ∧
      p.head? = some 0 ∧ p.getLast? = some 1 ∧
      List.Chain' (fun a b => b ∈ ((Graph.init 2).add_edge 0 1).adj a) p ∧
      (∀ q, q.head? = some 0 → q.getLast? = some 1 →
        List.Chain' (fun a b => b ∈ ((Graph.init 2).add_edge 0 1).adj a) q →
        p.length ≤ q.length)) :=
  ⟨by decide, by decide, by decide,
    c1_bfs_shortest_path ((Graph.init 2).add_edge 0 1) 0 1 (by decide) (by decide) (by decide)⟩

/-- C9: for every graph and source s on a valid vertex, the path from the
source to itself is the one-element path, and consequently find_word_path
with dictionary [abc] and equal origin and destination abc returns the
single-element path [abc]. -/
theorem c9_path_to_source_trivial (g : Graph) (s : Nat) (hs : s < g.V) :
    (BreadthFirstPaths.run g s).path_to s = .ok [s] ∧
      Wordpath.find_word_path ["abc"] "abc" "abc" = .ok ["abc"] := by
  constructor
  · obtain ⟨dd, hinv, hqe⟩ := bfs_run_inv g s hs
    obtain ⟨pc, hpc, hh, hl, -, hlen, -⟩ :=
      pathTo_of_inv g.V g.adjEnum s _ dd hinv s hinv.smark
    have hpc1 : pc = [s] := by
      cases pc with
      | nil => simp at hh
      | cons a t =>
        have ha : a = s := by
          rw [List.head?_cons] at hh
          exact Option.some_inj.mp hh
        rw [List.length_cons, hinv.sdd] at hlen
        have ht : t = [] := List.length_eq_zero.mp (by omega)
        rw [ha, ht]
    have hhp : (BreadthFirstPaths.run g s).has_path_to s = true := hinv.smark
    rw [BreadthFirstPaths.path_to, if_pos hhp]
    rw [show pathToChain (BreadthFirstPaths.run g s).EdgeTo (BreadthFirstPaths.run g s).S
        ((BreadthFirstPaths.run g s).Marked.length + 1) s = some pc from hpc, hpc1]
    rfl
  · decide

theorem c9_witness :
    0 < (Graph.init 1).V ∧
      ((BreadthFirstPaths.run (Graph.init 1) 0).path_to 0 = .ok [0] ∧
        Wordpath.find_word_path ["abc"] "abc" "abc" = .ok ["abc"]) :=
  ⟨by decide, c9_path_to_source_trivial (Graph.init 1) 0 (by decide)⟩

/-- C2 (code bug): with dictionary aaa, aab, zzz and query aaa to zzz, the
destination vertex 2 is never marked Visited, and find_word_path does not
return a no-path value: path_to reverses None and the program raises a
TypeError, which the claim and the spec say should be the value-level
NoPathFound outcome. -/
theorem c2_disconnected_raises_typeerror :
    (∃ g, Wordpath.build_graph (Wordpath.candidate_subset ["aaa", "aab", "zzz"] "aaa") =
        .ok g ∧ (BreadthFirstPaths.run g 0).has_path_to 2 = false) ∧
    Wordpath.find_word_path ["aaa", "aab", "zzz"] "aaa" "zzz" =
      .error (.typeError "NoneType object is not subscriptable") :=
  ⟨⟨_, rfl, by decide⟩, by decide⟩

/-- C3 (code bug): find_word_path never checks that origin and destination
have equal lengths.  With dictionary cat, do and query cat to do (lengths
3 and 2), the graph is built and the search runs, then the lookup of the
destination in the index dict raises KeyError: the query is neither
rejected before graph construction nor answered with a no-path value.
The spec's own concrete scenario, dictionary cat, dog with query cat to
dog, has words of EQUAL length 3; it proceeds to the search and raises a
TypeError in path_to instead of returning NoPathFound. -/
theorem c3_unequal_lengths_not_rejected :
    Wordpath.find_word_path ["cat", "do"] "cat" "do" = .error (.keyError "do") ∧
    Wordpath.find_word_path ["cat", "dog"] "cat" "dog" =
      .error (.typeError "NoneType object is not subscriptable") :=
  ⟨by decide, by decide⟩

/-- C6 (code bug): with dictionary ab and origin abc, no dictionary word
has the origin's length, so the candidate subset is empty; find_word_path
then raises KeyError on the origin lookup instead of propagating the
empty subset as a no-path result. -/
theorem c6_empty_subset_raises_keyerror :
    Wordpath.candidate_subset ["ab"] "abc" = [] ∧
    Wordpath.find_word_path ["ab"] "abc" "abd" = .error (.keyError "abc") :=
  ⟨by decide, by decide⟩
